import Mathlib

set_option maxHeartbeats 1000000

/-
Verification of the 100-prisoners Monte Carlo simulation (src/main.rs).

Embedding conventions:
- Rust `Vec<usize>` is `List ℕ`; all values are box indices below the prisoner
  count, so `usize` arithmetic never overflows and is modelled as `ℕ`.
- Rust integer division `prisoners / 2` is `ℕ` division.
- `boxes[i]` panics when `i` is out of bounds.  The total model reads with
  `List.getD i 0`; the checked model (`loop_strategyChk`, `prisoner_succeedsChk`)
  returns `none` exactly when the Rust code would panic, and the bounds theorem
  shows the two agree whenever `boxes` is a permutation of `[0, N)`.
- Randomness (`thread_rng`) is modelled by explicit choice functions: the
  Fisher-Yates shuffle of the `rand` crate consumes one bounded random index
  per position, supplied here by a function `choice : ℕ → ℕ`.
- The `f32` success ratio is modelled as `Option ℚ`: `none` models the NaN
  produced by `0.0 / 0.0` when the iteration count is zero; for a positive
  iteration count the exact rational ratio is returned.
-/

/-- The type of a box-selection strategy, Rust
`fn(&Vec<usize>, usize, Option<usize>) -> usize` (main.rs line 30):
given the boxes, the prisoner index and the previously revealed value,
return the content of the next opened box. -/
abbrev Strategy : Type := List ℕ → ℕ → Option ℕ → ℕ

/-- Embeds `loop_strategy` (main.rs lines 73-78): open the box at the
prisoner's own index first, afterwards the box indexed by the value just
revealed.  Rust `boxes[i]` is modelled totally as `getD i 0`; the checked
variant below accounts for the panic case. -/
def loop_strategy (boxes : List ℕ) (prisoner : ℕ) (previous : Option ℕ) : ℕ :=
  match previous with
  | some previous => boxes.getD previous 0
  | none => boxes.getD prisoner 0

/-- Embeds the `while` loop of `apply_strategy` (main.rs lines 58-61),
instrumented: `fuel = prisoners / 2 - opened_boxes` counts the loop
iterations still allowed, `box_contents` is the value revealed by the last
probe.  Returns the final comparison `box_contents == p` together with the
number of loop iterations executed (the final value of `opened_boxes`). -/
def probe_loop (strategy : Strategy) (boxes : List ℕ) (p : ℕ) :
    ℕ → ℕ → Bool × ℕ
  | 0, box_contents => (box_contents == p, 0)
  | fuel + 1, box_contents =>
    if box_contents = p then (true, 0)
    else
      let r := probe_loop strategy boxes p fuel (strategy boxes p (some box_contents))
      (r.1, r.2 + 1)

/-- Embeds the per-prisoner closure of `apply_strategy` (main.rs lines
54-64): the first probe `strategy(&boxes, p, None)` happens before the loop,
then the loop runs while the revealed value differs from `p` and
`opened_boxes < prisoners / 2`.  Returns (success, final `opened_boxes`). -/
def prisoner_result (strategy : Strategy) (boxes : List ℕ) (prisoners p : ℕ) :
    Bool × ℕ :=
  probe_loop strategy boxes p (prisoners / 2) (strategy boxes p none)

/-- The boolean `box_contents == p` returned for one prisoner
(main.rs line 63). -/
def prisoner_succeeds (strategy : Strategy) (boxes : List ℕ) (prisoners p : ℕ) :
    Bool :=
  (prisoner_result strategy boxes prisoners p).1

/-- Number of strategy invocations (boxes opened) during one prisoner's
evaluation: the initial probe of line 56 plus one probe per loop iteration
(line 60). -/
def probe_count (strategy : Strategy) (boxes : List ℕ) (prisoners p : ℕ) : ℕ :=
  (prisoner_result strategy boxes prisoners p).2 + 1

/-- Embeds `apply_strategy` (main.rs lines 47-70): evaluate every prisoner
`0..prisoners`, count the successes (`map` + `filter` + `count` is `countP`),
and succeed iff the count equals `prisoners`. -/
def apply_strategy (boxes : List ℕ) (prisoners : ℕ) (strategy : Strategy) :
    Bool :=
  (List.range prisoners).countP
      (fun p => prisoner_succeeds strategy boxes prisoners p)
    == prisoners

/-- Walk of the functional graph `index ↦ boxes[index]` starting at
`current`, counting steps until `p` recurs (fuel-bounded).  This is the
spec's notion of the permutation cycle containing `p` (glossary: "Cycle"),
used to compare the code's behaviour against the spec's cycle-length
criterion. -/
def cycle_walk (boxes : List ℕ) (p : ℕ) : ℕ → ℕ → ℕ
  | 0, _ => 0
  | fuel + 1, current =>
    if boxes.getD current 0 = p then 1
    else cycle_walk boxes p fuel (boxes.getD current 0) + 1

/-- Length of the permutation cycle of `boxes` containing `p`: steps from
`p` along `index ↦ boxes[index]` until `p` recurs.  `boxes.length` fuel
suffices for genuine permutations. -/
def cycle_length (boxes : List ℕ) (p : ℕ) : ℕ :=
  cycle_walk boxes p boxes.length p

/-- The loop counter never exceeds the fuel it started with. -/
lemma probe_loop_snd_le (strategy : Strategy) (boxes : List ℕ) (p : ℕ)
    (fuel : ℕ) : ∀ c, (probe_loop strategy boxes p fuel c).2 ≤ fuel := by
  induction fuel with
  | zero => intro c; simp [probe_loop]
  | succ f ih =>
    intro c
    by_cases h : c = p
    · simp [probe_loop, h]
    · simpa [probe_loop, h] using ih (strategy boxes p (some c))

/-- Claim C9: for every prisoner count, every box vector and every strategy,
the per-prisoner probe loop terminates: the loop counter `opened_boxes`
(second component of `prisoner_result`, incremented once per iteration)
never exceeds `prisoners / 2`, so at most `prisoners / 2` iterations run and
at most `prisoners / 2 + 1` strategy invocations are made; `prisoner_result`
and `apply_strategy` are total Lean functions. -/
theorem probe_loop_terminates (strategy : Strategy) (boxes : List ℕ)
    (prisoners p : ℕ) :
    (prisoner_result strategy boxes prisoners p).2 ≤ prisoners / 2 ∧
    probe_count strategy boxes prisoners p ≤ prisoners / 2 + 1 := by
  refine ⟨probe_loop_snd_le _ _ _ _ _, ?_⟩
  have h := probe_loop_snd_le strategy boxes p (prisoners / 2)
    (strategy boxes p none)
  simp only [probe_count, prisoner_result] at *
  omega

/-- Claim C1 (divergence witness): the box vector `[1, 0]` is a permutation
of `[0, 2)` whose cycle containing prisoner `0` has length `2`, which
exceeds the probe budget `2 / 2 = 1`; yet the code reports success for
prisoner `0`, because the probe before the loop (main.rs line 56) is not
counted against `opened_boxes`, so a prisoner may open `N / 2 + 1` boxes.
The spec's "success iff cycle length ≤ N/2" therefore fails on the code. -/
theorem loop_strategy_budget_off_by_one :
    List.Perm [1, 0] (List.range 2) ∧
    cycle_length [1, 0] 0 = 2 ∧
    ¬ (cycle_length [1, 0] 0 ≤ 2 / 2) ∧
    prisoner_succeeds loop_strategy [1, 0] 2 0 = true := by
  decide

/-- Claim C3 (divergence witness): on the permutation `[1, 0]` with `N = 2`,
prisoner `0` makes `2` strategy invocations (opens `2` boxes), exceeding the
budget `N / 2 = 1`: the initial probe of main.rs line 56 is not counted
against `opened_boxes`. -/
theorem probe_count_exceeds_half :
    probe_count loop_strategy [1, 0] 2 0 = 2 ∧
    2 / 2 < probe_count loop_strategy [1, 0] 2 0 := by
  decide

/-- Claim C5: for every strategy and every permutation of `[0, N)`, the
trial outcome returned by `apply_strategy` is `true` iff every prisoner
index below `N` succeeds. -/
theorem trial_outcome_iff_all_prisoners (strategy : Strategy)
    (boxes : List ℕ) (N : ℕ) (hperm : List.Perm boxes (List.range N)) :
    apply_strategy boxes N strategy = true ↔
      ∀ p < N, prisoner_succeeds strategy boxes N p = true := by
  have hlen : (List.range N).length = N := List.length_range N
  constructor
  · intro h p hp
    have hc : (List.range N).countP
        (fun q => prisoner_succeeds strategy boxes N q) = (List.range N).length := by
      have := of_decide_eq_true (by simpa [apply_strategy] using h)
      omega
    exact List.countP_eq_length.mp hc p (List.mem_range.mpr hp)
  · intro h
    have hc : (List.range N).countP
        (fun q => prisoner_succeeds strategy boxes N q) = (List.range N).length :=
      List.countP_eq_length.mpr (fun q hq => h q (List.mem_range.mp hq))
    simp [apply_strategy, hc, hlen]

/-- Witness for C5 at `boxes = [1, 0]`, `N = 2`, the loop strategy. -/
theorem trial_outcome_iff_all_prisoners_witness :
    apply_strategy [1, 0] 2 loop_strategy = true ↔
      ∀ p < 2, prisoner_succeeds loop_strategy [1, 0] 2 p = true :=
  trial_outcome_iff_all_prisoners loop_strategy [1, 0] 2 (by decide)

/-- A list permuting `List.range 2` is `[0, 1]` or `[1, 0]`. -/
lemma eq_of_perm_range_two {l : List ℕ} (h : List.Perm l (List.range 2)) :
    l = [0, 1] ∨ l = [1, 0] := by
  have hlen : l.length = 2 := by
    have := h.length_eq
    simpa [List.length_range] using this
  have hnd : l.Nodup := h.nodup_iff.mpr (List.nodup_range 2)
  match l, hlen with
  | [a, b], _ =>
    have ha : a < 2 := by
      have : a ∈ List.range 2 := h.mem_iff.mp (by simp)
      simpa [List.mem_range] using this
    have hb : b < 2 := by
      have : b ∈ List.range 2 := h.mem_iff.mp (by simp)
      simpa [List.mem_range] using this
    have hab : a ≠ b := by
      intro hab
      subst hab
      simp at hnd
    interval_cases a <;> interval_cases b <;> simp_all

/-- Claim C4: for `N = 2` under the loop strategy, for every permutation of
`{0, 1}` every prisoner succeeds and the trial outcome is `true`.  (This
holds on the code because a prisoner may open `N / 2 + 1 = 2` boxes, enough
to traverse the 2-cycle `[1, 0]`.) -/
theorem two_prisoners_always_succeed (boxes : List ℕ)
    (hperm : List.Perm boxes (List.range 2)) :
    (∀ p < 2, prisoner_succeeds loop_strategy boxes 2 p = true) ∧
    apply_strategy boxes 2 loop_strategy = true := by
  rcases eq_of_perm_range_two hperm with rfl | rfl
  · exact ⟨by decide, by decide⟩
  · exact ⟨by decide, by decide⟩

/-- Witness for C4 at the non-identity permutation `[1, 0]`. -/
theorem two_prisoners_always_succeed_witness :
    (∀ p < 2, prisoner_succeeds loop_strategy [1, 0] 2 p = true) ∧
    apply_strategy [1, 0] 2 loop_strategy = true :=
  two_prisoners_always_succeed [1, 0] (by decide)

/-- One in-place swap `boxes.swap(i, j)`: both entries are read from the
original list, then written back (so `swapNth l i i = l.set i (l.getD i 0)`). -/
def swapNth (l : List ℕ) (i j : ℕ) : List ℕ :=
  (l.set i (l.getD j 0)).set j (l.getD i 0)

/-- Modelled from the spec: the shuffle of main.rs line 36 is
`rand::seq::SliceRandom::shuffle`, an external crate whose code is not in
`src/`; the spec calls for "an unbiased shuffle, e.g. Fisher-Yates".
This is the Fisher-Yates descent `for i in (1..len).rev() { swap(i,
gen_range(0..=i)) }`, with the bounded random draw `gen_range(0..=i)`
modelled as `choice i % (i + 1)`. -/
def shuffle_go (choice : ℕ → ℕ) : List ℕ → ℕ → List ℕ
  | l, 0 => l
  | l, i + 1 => shuffle_go choice (swapNth l (i + 1) (choice (i + 1) % (i + 2))) i

/-- Shuffle of a whole list: Fisher-Yates from the last index down. -/
def shuffle (choice : ℕ → ℕ) (l : List ℕ) : List ℕ :=
  shuffle_go choice l (l.length - 1)

/-- Embeds main.rs lines 35-36: collect `0..prisoners` and shuffle it. -/
def generate_boxes (prisoners : ℕ) (choice : ℕ → ℕ) : List ℕ :=
  shuffle choice (List.range prisoners)

/-- Setting index `i` is, up to permutation, replacing the element there. -/
lemma set_perm_cons (b : ℕ) :
    ∀ (l : List ℕ) (i : ℕ), i < l.length →
      List.Perm (l.set i b) (b :: l.eraseIdx i) := by
  intro l
  induction l with
  | nil => intro i h; simp at h
  | cons hd tl ih =>
    intro i h
    cases i with
    | zero => simp
    | succ j =>
      have hj : j < tl.length := by simpa using h
      have h1 : (hd :: tl).set (j + 1) b = hd :: tl.set j b := rfl
      have h2 : (hd :: tl).eraseIdx (j + 1) = hd :: tl.eraseIdx j := rfl
      rw [h1, h2]
      exact ((ih j hj).cons hd).trans (List.Perm.swap b hd _)

/-- A list is, up to permutation, its `i`-th element put in front of the
rest. -/
lemma self_perm_cons :
    ∀ (l : List ℕ) (i : ℕ), i < l.length →
      List.Perm l (l.getD i 0 :: l.eraseIdx i) := by
  intro l
  induction l with
  | nil => intro i h; simp at h
  | cons hd tl ih =>
    intro i h
    cases i with
    | zero => simp
    | succ j =>
      have hj : j < tl.length := by simpa using h
      have h1 : (hd :: tl).getD (j + 1) 0 = tl.getD j 0 := by simp
      have h2 : (hd :: tl).eraseIdx (j + 1) = hd :: tl.eraseIdx j := rfl
      rw [h1, h2]
      exact ((ih j hj).cons hd).trans (List.Perm.swap _ hd _)

/-- Count balance for a single `set` at an in-bounds index. -/
lemma count_set_add (l : List ℕ) (i b : ℕ) (h : i < l.length) (a : ℕ) :
    (l.set i b).count a + (if l.getD i 0 = a then 1 else 0) =
      l.count a + (if b = a then 1 else 0) := by
  have h1 := (set_perm_cons b l i h).count_eq a
  have h2 := (self_perm_cons l i h).count_eq a
  simp only [List.count_cons] at h1 h2
  by_cases hb : b = a <;> by_cases hl : l.getD i 0 = a <;>
    simp_all <;> omega

/-- An in-bounds swap permutes the list. -/
lemma swapNth_perm (l : List ℕ) (i j : ℕ) (hi : i < l.length)
    (hj : j < l.length) : List.Perm (swapNth l i j) l := by
  by_cases hij : i = j
  · subst hij
    rw [List.perm_iff_count]
    intro a
    have h := count_set_add l i (l.getD i 0) hi a
    simp only [swapNth, List.set_set]
    omega
  · rw [List.perm_iff_count]
    intro a
    have hmlen : j < (l.set i (l.getD j 0)).length := by simpa using hj
    have hgd : (l.set i (l.getD j 0)).getD j 0 = l.getD j 0 := by
      rw [List.getD_eq_getD_get?, List.getD_eq_getD_get?, List.get?_eq_getElem?,
        List.get?_eq_getElem?, List.getElem?_set_ne hij]
    have h1 := count_set_add (l.set i (l.getD j 0)) j (l.getD i 0) hmlen a
    have h2 := count_set_add l i (l.getD j 0) hi a
    rw [hgd] at h1
    simp only [swapNth]
    omega

/-- The Fisher-Yates descent from any in-range index permutes the list. -/
lemma shuffle_go_perm (choice : ℕ → ℕ) :
    ∀ (i : ℕ) (l : List ℕ), i < l.length →
      List.Perm (shuffle_go choice l i) l := by
  intro i
  induction i with
  | zero => intro l _; simp [shuffle_go]
  | succ n ih =>
    intro l h
    have hc : choice (n + 1) % (n + 2) < l.length :=
      lt_of_lt_of_le (Nat.mod_lt _ (by omega)) (by omega)
    have hswap := swapNth_perm l (n + 1) (choice (n + 1) % (n + 2)) h hc
    have hlen : (swapNth l (n + 1) (choice (n + 1) % (n + 2))).length =
        l.length := hswap.length_eq
    have hrec := ih (swapNth l (n + 1) (choice (n + 1) % (n + 2))) (by omega)
    exact (hrec.trans hswap : _)

/-- A shuffle permutes the list, for every sequence of random choices. -/
lemma shuffle_perm (choice : ℕ → ℕ) (l : List ℕ) :
    List.Perm (shuffle choice l) l := by
  cases l with
  | nil => simp [shuffle, shuffle_go]
  | cons hd tl =>
    exact shuffle_go_perm choice ((hd :: tl).length - 1) (hd :: tl) (by simp)

/-- Claim C6: for all `N ≥ 1` and every sequence of random choices, the box
vector generated for a trial (`(0..N).collect()` then shuffled, main.rs
lines 35-36) is a permutation of `[0, N)`: it has length `N` and contains
each value `v < N` exactly once — no duplicates, no gaps. -/
theorem generated_boxes_each_value_once (N : ℕ) (choice : ℕ → ℕ)
    (hN : 1 ≤ N) :
    List.Perm (generate_boxes N choice) (List.range N) ∧
    (generate_boxes N choice).length = N ∧
    ∀ v < N, (generate_boxes N choice).count v = 1 := by
  have hperm : List.Perm (generate_boxes N choice) (List.range N) :=
    shuffle_perm choice (List.range N)
  refine ⟨hperm, by simpa [List.length_range] using hperm.length_eq, ?_⟩
  intro v hv
  rw [hperm.count_eq v]
  exact List.count_eq_one_of_mem (List.nodup_range N) (List.mem_range.mpr hv)

/-- Witness for C6 at `N = 3` with the identity choice sequence. -/
theorem generated_boxes_each_value_once_witness :
    List.Perm (generate_boxes 3 (fun i => i)) (List.range 3) ∧
    (generate_boxes 3 (fun i => i)).length = 3 ∧
    ∀ v < 3, (generate_boxes 3 (fun i => i)).count v = 1 :=
  generated_boxes_each_value_once 3 (fun i => i) (by decide)

/-- The iterator of main.rs lines 33-40: one boolean per trial, each trial
shuffling a fresh box vector (the draws of iteration `i` come from
`choices i`) and applying the strategy to every prisoner. -/
def trial_results (prisoners iterations : ℕ) (strategy : Strategy)
    (choices : ℕ → ℕ → ℕ) : List Bool :=
  (List.range iterations).map
    (fun i => apply_strategy (generate_boxes prisoners (choices i)) prisoners strategy)

/-- The `filter(|s| *s).count()` of main.rs line 43: number of successful
trials. -/
def successful_trials (prisoners iterations : ℕ) (strategy : Strategy)
    (choices : ℕ → ℕ → ℕ) : ℕ :=
  (trial_results prisoners iterations strategy choices).countP id

/-- Models the `f32` ratio `count as f32 / iterations as f32` (main.rs line
43) as an exact rational; `none` models the NaN produced by `0.0 / 0.0` when
`iterations = 0`, the only division anomaly reachable (the success count
never exceeds the iteration count). -/
def success_rate (count iterations : ℕ) : Option ℚ :=
  if iterations = 0 then none else some ((count : ℚ) / (iterations : ℚ))

/-- Embeds `simulate_prisoner_dilemma` (main.rs lines 27-44). -/
def simulate_prisoner_dilemma (prisoners iterations : ℕ) (strategy : Strategy)
    (choices : ℕ → ℕ → ℕ) : Option ℚ :=
  success_rate (successful_trials prisoners iterations strategy choices)
    iterations

/-- Embeds `main` (main.rs lines 101-115): clap accepts any `u32` for both
flags, zero included; the parsed values go straight into the simulation with
the loop strategy — no validation step exists between parsing and
simulation. -/
def run_main (prisoners iterations : ℕ) (choices : ℕ → ℕ → ℕ) : Option ℚ :=
  simulate_prisoner_dilemma prisoners iterations loop_strategy choices

/-- Claim C7 counterexample: at iteration count `K = 0` the simulation does
not return a ratio in `[0, 1]`: the division `0.0 / 0.0` is a NaN
(modelled `none`), so there is no rational success rate at all. -/
theorem success_rate_nan_at_zero_iterations :
    simulate_prisoner_dilemma 100 0 loop_strategy (fun _ _ => 0) = none ∧
    ∀ q : ℚ,
      ¬ (simulate_prisoner_dilemma 100 0 loop_strategy (fun _ _ => 0) = some q ∧
         0 ≤ q ∧ q ≤ 1) := by
  refine ⟨rfl, ?_⟩
  rintro q ⟨hq, -⟩
  simp [simulate_prisoner_dilemma, success_rate] at hq

/-- Claim C7 (amended: the iteration count must be positive): for every
prisoner count, every iteration count `K ≥ 1`, every strategy and every
randomness, the simulation returns exactly (number of successful trials)
divided by `K`, and that ratio lies in `[0, 1]`. -/
theorem success_rate_in_unit_interval (prisoners iterations : ℕ)
    (strategy : Strategy) (choices : ℕ → ℕ → ℕ) (hK : 1 ≤ iterations) :
    successful_trials prisoners iterations strategy choices ≤ iterations ∧
    simulate_prisoner_dilemma prisoners iterations strategy choices =
      some ((successful_trials prisoners iterations strategy choices : ℚ) /
        (iterations : ℚ)) ∧
    0 ≤ ((successful_trials prisoners iterations strategy choices : ℚ) /
        (iterations : ℚ)) ∧
    ((successful_trials prisoners iterations strategy choices : ℚ) /
        (iterations : ℚ)) ≤ 1 := by
  have hle : successful_trials prisoners iterations strategy choices ≤
      iterations := by
    have h1 := List.countP_le_length (l := trial_results prisoners iterations
      strategy choices) id
    simpa [successful_trials, trial_results] using h1
  have hKQ : (0 : ℚ) < (iterations : ℚ) := by exact_mod_cast hK
  refine ⟨hle, ?_, by positivity, ?_⟩
  · unfold simulate_prisoner_dilemma success_rate
    rw [if_neg (by omega)]
  · rw [div_le_one hKQ]
    exact_mod_cast hle

/-- Witness for C7 (amended) at two prisoners, one iteration. -/
theorem success_rate_in_unit_interval_witness :
    successful_trials 2 1 loop_strategy (fun _ _ => 0) ≤ 1 ∧
    simulate_prisoner_dilemma 2 1 loop_strategy (fun _ _ => 0) =
      some ((successful_trials 2 1 loop_strategy (fun _ _ => 0) : ℚ) /
        ((1 : ℕ) : ℚ)) ∧
    0 ≤ ((successful_trials 2 1 loop_strategy (fun _ _ => 0) : ℚ) /
        ((1 : ℕ) : ℚ)) ∧
    ((successful_trials 2 1 loop_strategy (fun _ _ => 0) : ℚ) /
        ((1 : ℕ) : ℚ)) ≤ 1 :=
  success_rate_in_unit_interval 2 1 loop_strategy (fun _ _ => 0) (by decide)

/-- Claim C2 (divergence witness): `main` performs no configuration
validation.  With `N = 100, K = 0` the simulation is entered and the
reported rate is the NaN `0.0 / 0.0` (modelled `none`); with `N = 0, K = 1`
every trial vacuously succeeds and the program reports rate `1` and exits
normally.  The rejection demanded by the claim — configuration error before
simulation, non-zero exit — does not exist in the code. -/
theorem main_accepts_degenerate_config :
    run_main 100 0 (fun _ _ => 0) = none ∧
    run_main 0 1 (fun _ _ => 0) = some 1 := by
  constructor
  · rfl
  · have hc : successful_trials 0 1 loop_strategy (fun _ _ => 0) = 1 := by
      decide
    unfold run_main simulate_prisoner_dilemma
    rw [hc]
    unfold success_rate
    rw [if_neg (by omega)]
    norm_num

/-- State-passing strategy type used to express the frame property: the
strategy receives the box vector and returns the revealed value together
with the box vector it leaves behind for the next access. -/
abbrev StrategyS : Type := List ℕ → ℕ → Option ℕ → ℕ × List ℕ

/-- `loop_strategy` in the state-passing model: it only reads the vector
through the shared reference `&Vec<usize>` (main.rs line 73) and hands it
back unchanged. -/
def loop_strategyS (boxes : List ℕ) (prisoner : ℕ) (previous : Option ℕ) :
    ℕ × List ℕ :=
  (loop_strategy boxes prisoner previous, boxes)

/-- The probe loop threading the box vector through every strategy
invocation. -/
def probe_loopS (strategy : StrategyS) (p : ℕ) :
    ℕ → ℕ × List ℕ → Bool × List ℕ
  | 0, (box_contents, boxes) => (box_contents == p, boxes)
  | fuel + 1, (box_contents, boxes) =>
    if box_contents = p then (true, boxes)
    else probe_loopS strategy p fuel (strategy boxes p (some box_contents))

/-- Per-prisoner evaluation threading the box vector. -/
def prisoner_resultS (strategy : StrategyS) (boxes : List ℕ) (prisoners p : ℕ) :
    Bool × List ℕ :=
  probe_loopS strategy p (prisoners / 2) (strategy boxes p none)

/-- `apply_strategy` threading the box vector through all prisoners:
the success counter of main.rs lines 53-66, together with the box vector as
the evaluation leaves it. -/
def apply_strategyS (boxes : List ℕ) (prisoners : ℕ) (strategy : StrategyS) :
    Bool × List ℕ :=
  let r := (List.range prisoners).foldl
    (fun acc p =>
      let pr := prisoner_resultS strategy acc.2 prisoners p
      (acc.1 + (if pr.1 then 1 else 0), pr.2))
    ((0 : ℕ), boxes)
  (r.1 == prisoners, r.2)

/-- Under the loop strategy the threaded probe loop never changes the box
vector and computes the same boolean as the direct loop. -/
lemma probe_loopS_eq (p : ℕ) : ∀ (fuel c : ℕ) (b : List ℕ),
    probe_loopS loop_strategyS p fuel (c, b) =
      ((probe_loop loop_strategy b p fuel c).1, b) := by
  intro fuel
  induction fuel with
  | zero => intro c b; simp [probe_loopS, probe_loop]
  | succ f ih =>
    intro c b
    by_cases h : c = p
    · simp [probe_loopS, probe_loop, h]
    · simp [probe_loopS, probe_loop, h, loop_strategyS, ih]

/-- Per-prisoner: the threaded evaluation returns the vector untouched. -/
lemma prisoner_resultS_eq (boxes : List ℕ) (prisoners p : ℕ) :
    prisoner_resultS loop_strategyS boxes prisoners p =
      (prisoner_succeeds loop_strategy boxes prisoners p, boxes) := by
  simp [prisoner_resultS, prisoner_succeeds, prisoner_result, loop_strategyS,
    probe_loopS_eq]

/-- One step of the success-counting fold, evaluated. -/
lemma foldS_step (prisoners hd a : ℕ) (b : List ℕ) :
    (let pr := prisoner_resultS loop_strategyS ((a, b) : ℕ × List ℕ).2 prisoners hd;
      (((a, b) : ℕ × List ℕ).1 + (if pr.1 then 1 else 0), pr.2)) =
    (a + (if prisoner_succeeds loop_strategy b prisoners hd then 1 else 0),
      b) := by
  simp [prisoner_resultS_eq]

/-- The success-counting fold keeps the vector and counts `countP`. -/
lemma foldS_eq (prisoners : ℕ) (boxes : List ℕ) :
    ∀ (l : List ℕ) (acc : ℕ),
      l.foldl (fun acc p =>
          let pr := prisoner_resultS loop_strategyS acc.2 prisoners p
          (acc.1 + (if pr.1 then 1 else 0), pr.2)) (acc, boxes) =
        (acc + l.countP
          (fun p => prisoner_succeeds loop_strategy boxes prisoners p),
         boxes) := by
  intro l
  induction l with
  | nil => intro acc; simp
  | cons hd tl ih =>
    intro acc
    rw [List.foldl_cons, foldS_step, ih, List.countP_cons]
    by_cases h : prisoner_succeeds loop_strategy boxes prisoners hd = true <;>
      simp [h] <;> omega

/-- Claim C8: evaluating prisoners with the loop strategy never mutates the
permutation: each strategy invocation hands back exactly the vector it was
given, each prisoner's evaluation leaves the vector equal to the input, and
the whole trial evaluation returns the original vector together with the
same outcome as the direct (read-only) model. -/
theorem loop_strategy_no_mutation :
    (∀ (boxes : List ℕ) (prisoner : ℕ) (previous : Option ℕ),
      (loop_strategyS boxes prisoner previous).2 = boxes) ∧
    (∀ (boxes : List ℕ) (prisoners p : ℕ),
      (prisoner_resultS loop_strategyS boxes prisoners p).2 = boxes) ∧
    ∀ (boxes : List ℕ) (prisoners : ℕ),
      apply_strategyS boxes prisoners loop_strategyS =
        (apply_strategy boxes prisoners loop_strategy, boxes) := by
  refine ⟨fun _ _ _ => rfl, fun boxes prisoners p => by
    rw [prisoner_resultS_eq], fun boxes prisoners => ?_⟩
  simp only [apply_strategyS, foldS_eq, Nat.zero_add, apply_strategy]

/-- Checked `loop_strategy` (main.rs lines 73-78): Rust `boxes[i]` panics
when `i` is out of bounds; here the panic is `none`. -/
def loop_strategyChk (boxes : List ℕ) (prisoner : ℕ) (previous : Option ℕ) :
    Option ℕ :=
  match previous with
  | some previous => boxes[previous]?
  | none => boxes[prisoner]?

/-- Checked probe loop under the loop strategy: a panic in any invocation
aborts the evaluation with `none`. -/
def probe_loopChk (boxes : List ℕ) (p : ℕ) : ℕ → ℕ → Option Bool
  | 0, box_contents => some (box_contents == p)
  | fuel + 1, box_contents =>
    if box_contents = p then some true
    else
      match loop_strategyChk boxes p (some box_contents) with
      | none => none
      | some c => probe_loopChk boxes p fuel c

/-- Checked per-prisoner evaluation under the loop strategy. -/
def prisoner_succeedsChk (boxes : List ℕ) (prisoners p : ℕ) : Option Bool :=
  match loop_strategyChk boxes p none with
  | none => none
  | some c => probe_loopChk boxes p (prisoners / 2) c

/-- Every element of a permutation of `[0, N)` is below `N`. -/
lemma mem_lt_of_perm_range {boxes : List ℕ} {N : ℕ}
    (h : List.Perm boxes (List.range N)) {x : ℕ} (hx : x ∈ boxes) : x < N :=
  List.mem_range.mp (h.mem_iff.mp hx)

/-- Reading a permutation of `[0, N)` at an index below `N` is in bounds and
yields a value below `N`. -/
lemma read_perm_range {boxes : List ℕ} {N : ℕ}
    (h : List.Perm boxes (List.range N)) {c : ℕ} (hc : c < N) :
    boxes[c]? = some (boxes.getD c 0) ∧ boxes.getD c 0 < N := by
  have hlen : boxes.length = N := by
    simpa [List.length_range] using h.length_eq
  have hcl : c < boxes.length := by omega
  have h1 : boxes.getD c 0 = boxes[c] := List.getD_eq_getElem boxes 0 hcl
  constructor
  · rw [h1]
    exact List.getElem?_eq_getElem hcl
  · rw [h1]
    exact mem_lt_of_perm_range h (List.getElem_mem hcl)

/-- On a permutation of `[0, N)`, starting from a value below `N`, the
checked probe loop never hits an out-of-bounds index and agrees with the
total model. -/
lemma probe_loopChk_eq {boxes : List ℕ} {N : ℕ}
    (h : List.Perm boxes (List.range N)) (p : ℕ) :
    ∀ (fuel c : ℕ), c < N →
      probe_loopChk boxes p fuel c =
        some (probe_loop loop_strategy boxes p fuel c).1 := by
  intro fuel
  induction fuel with
  | zero => intro c _; simp [probe_loopChk, probe_loop]
  | succ f ih =>
    intro c hc
    by_cases hcp : c = p
    · simp [probe_loopChk, probe_loop, hcp]
    · have hg := read_perm_range h hc
      simp only [probe_loopChk, probe_loop, if_neg hcp, loop_strategyChk]
      rw [hg.1]
      simpa [loop_strategy] using ih (boxes.getD c 0) hg.2

/-- Claim C10: when `boxes` is a permutation of `[0, N)` and the prisoner
index is below `N`, every call the evaluator makes to `loop_strategy`
indexes within bounds — the checked evaluation, which returns `none` on the
first out-of-bounds access (Rust panic), returns `some` and agrees with the
total model.  No panic is reachable. -/
theorem loop_strategy_indexing_in_bounds (boxes : List ℕ) (N p : ℕ)
    (hperm : List.Perm boxes (List.range N)) (hp : p < N) :
    prisoner_succeedsChk boxes N p =
      some (prisoner_succeeds loop_strategy boxes N p) := by
  have hg := read_perm_range hperm hp
  simp only [prisoner_succeedsChk, loop_strategyChk]
  rw [hg.1]
  simpa [prisoner_succeeds, prisoner_result, loop_strategy] using
    probe_loopChk_eq hperm p (N / 2) (boxes.getD p 0) hg.2

/-- Witness for C10 at `boxes = [1, 0]`, `N = 2`, prisoner `0`. -/
theorem loop_strategy_indexing_in_bounds_witness :
    prisoner_succeedsChk [1, 0] 2 0 =
      some (prisoner_succeeds loop_strategy [1, 0] 2 0) :=
  loop_strategy_indexing_in_bounds [1, 0] 2 0 (by decide) (by decide)
